import Mathlib

set_option maxHeartbeats 1000000
set_option maxRecDepth 4000

/-!
Shallow embedding of the UltraCDC content-defined-chunking kernel of this
repository, together with its option validation and defaults.

The repository carries two revisions of the kernel:
* the final byte-indexed revision (package file with signature
  `Algorithm(options, data, n) (cutpoint int)`, inner loop returning `i + j`),
  embedded in namespace `UltraCDC`;
* the earlier word-aligned-scanning revision (signature
  `Algorithm(options, data, n, pass int) int`, working on `data` reinterpreted
  as little-endian `[]uint64`, inner loop returning `i + 8`), embedded in
  namespace `UltraCDCW`.

Byte slices are modelled by their length and the byte stored at each index;
Go panics (out-of-range indexing/slicing, the `n > len(data)` guard) are
modelled as `none`.
-/

/-- Chunker options (Go `chunkers.ChunkerOpts`): the size triple. -/
structure ChunkerOpts where
  MinSize : Nat
  NormalSize : Nat
  MaxSize : Nat
deriving DecidableEq

/-- A Go byte slice, modelled as its length and the byte stored at each
index (reduced mod 256 on access). -/
structure GoSlice where
  len : Nat
  byte : Nat → Nat

/-- Byte content at index `i` (always < 256). -/
def GoSlice.get (d : GoSlice) (i : Nat) : Nat := d.byte i % 256

/-- Checked read `data[i]`: Go indexing panics (here: `none`) out of range. -/
def readByte (d : GoSlice) (i : Nat) : Option Nat :=
  if i < d.len then some (d.get i) else none

/-- The 8-byte window `data[i:i+8]` as a byte list, in little-endian order of
the corresponding `uint64`. -/
def window (d : GoSlice) (i : Nat) : List Nat :=
  [d.get i, d.get (i+1), d.get (i+2), d.get (i+3),
   d.get (i+4), d.get (i+5), d.get (i+6), d.get (i+7)]

/-- Checked slice `data[i:i+8]`: panics (`none`) unless `i+8 ≤ len`. -/
def readWindow (d : GoSlice) (i : Nat) : Option (List Nat) :=
  if i + 8 ≤ d.len then some (window d i) else none

/-- Population count of the low 8 bits (Go `bits.OnesCount8`). -/
def popCount8 (x : Nat) : Nat :=
  ((x >>> 0) &&& 1) + ((x >>> 1) &&& 1) + ((x >>> 2) &&& 1) + ((x >>> 3) &&& 1) +
  ((x >>> 4) &&& 1) + ((x >>> 5) &&& 1) + ((x >>> 6) &&& 1) + ((x >>> 7) &&& 1)

/-- Modelled from the spec: the 256-entry Hamming-weight table
`hammingDistanceTo0xAA` (and the column `hammingDistanceTable[0xAA][·]` used by
the word-scanning revision) is not among the given source files; per the spec,
entry `b` holds the Hamming weight of `b XOR 0xAA`. -/
def hammingDistanceTo0xAA (b : Nat) : Nat := popCount8 ((b % 256) ^^^ 0xAA)

/-- Hamming distance between an 8-byte window and the pattern `0xAA…AA`,
computed bytewise (as the kernels initialize it). -/
def distOfList (l : List Nat) : Nat := (l.map hammingDistanceTo0xAA).sum

/-- Go conversion `uint64(x)` of a (possibly negative) `int`. -/
def goUint64 (x : Int) : Nat := (x % ((2:Int)^64)).toNat

/-- Outcome of the 8 shifts of the inner byte loop: a masked-test hit at shift
`j`, completion with the updated running distance, or an out-of-range read. -/
inductive ScanRes where
  | hit (j : Nat)
  | done (dist : Int)
  | oob
deriving DecidableEq

/-- Error values of ultracdc option validation. -/
inductive Err where
  | ErrNormalSize
  | ErrMinSize
  | ErrMaxSize
  | ErrMinSizeNotMultipleOf8
deriving DecidableEq

/-- Effective scan end: the `case n >= MaxSize: n = MaxSize` clamp of the
switch of the kernel. -/
def effN (o : ChunkerOpts) (n : Nat) : Nat :=
  if n ≥ o.MaxSize then o.MaxSize else n

/-- Effective normal size: the `case n <= NormalSize: NormalSize = n` clause of
the switch of the kernel (only reached when `MinSize < n < MaxSize`). -/
def effNormal (o : ChunkerOpts) (n : Nat) : Nat :=
  if n ≥ o.MaxSize then o.NormalSize
  else if n ≤ o.NormalSize then n else o.NormalSize

namespace UltraCDC

/-- Strict mask, binary 101111. -/
def maskS : Nat := 0x2F

/-- Relaxed mask, binary 101100. -/
def maskL : Nat := 0x2C

/-- LEST of the paper: low-entropy string threshold. -/
def lowEntropyStringThreshold : Nat := 64

/-- Option validation of the final byte-indexed revision (no multiple-of-8
requirement on MinSize). -/
def Validate (options : ChunkerOpts) : Option Err :=
  if options.NormalSize = 0 ∨ options.NormalSize < 64 ∨
      options.NormalSize > 1024*1024*1024 then some Err.ErrNormalSize
  else if options.MinSize < 64 ∨ options.MinSize > 1024*1024*1024 ∨
      options.MinSize ≥ options.NormalSize then some Err.ErrMinSize
  else if options.MaxSize < 64 ∨ options.MaxSize > 1024*1024*1024 ∨
      options.MaxSize ≤ options.NormalSize then some Err.ErrMaxSize
  else none

/-- DefaultOptions of the final byte-indexed revision: 2 KiB / 10 KiB / 64 KiB. -/
def DefaultOptions : ChunkerOpts :=
  { MinSize := 2 * 1024, NormalSize := 10 * 1024, MaxSize := 64 * 1024 }

/-- Inner byte loop `for j := 0; j < 8; j++` of the byte-indexed revision:
test `(uint64(dist) & mask) == 0`, on hit report `j`; otherwise slide the
window by one byte, reading `outByte = data[i+j-8]`, `inByte = data[i+j]` and
updating `dist` through the Hamming-weight table. -/
def scanWord (d : GoSlice) (i mask : Nat) : Nat → Nat → Int → ScanRes
  | 0, _, dist => ScanRes.done dist
  | rem+1, j, dist =>
    if goUint64 dist &&& mask = 0 then ScanRes.hit j
    else
      match readByte d (i + j - 8), readByte d (i + j) with
      | some outByte, some inByte =>
          scanWord d i mask rem (j+1)
            (dist + ((hammingDistanceTo0xAA inByte : Int)
                   - (hammingDistanceTo0xAA outByte : Int)))
      | _, _ => ScanRes.oob

/-- Outer loop `for i := minSize + 8; i <= n-8; i += 8` of the byte-indexed
revision, with the iteration count made explicit as `fuel` (each iteration
advances `i` by 8, so any `fuel` with `n ≤ 8*fuel + i` is enough). -/
def ultraLoop (d : GoSlice) (n normalSize : Nat) (fuel i cnt mask : Nat)
    (outBufWin : List Nat) (dist : Int) : Option Nat :=
  if i + 8 ≤ n then
    match fuel with
    | 0 => none
    | f + 1 =>
      let mask2 := if normalSize ≤ i then maskL else mask
      match readWindow d i with
      | none => none
      | some inBufWin =>
        if inBufWin = outBufWin then
          if cnt + 1 ≥ lowEntropyStringThreshold then some (i + 8)
          else ultraLoop d n normalSize f (i+8) (cnt+1) mask2 outBufWin dist
        else
          match scanWord d i mask2 8 0 dist with
          | ScanRes.hit j => some (i + j)
          | ScanRes.oob => none
          | ScanRes.done dist2 => ultraLoop d n normalSize f (i+8) 0 mask2 inBufWin dist2
  else some n

/-- The byte-indexed UltraCDC kernel (final revision): cut-point search over
the first `n` bytes of `data`. `none` models a Go panic. -/
def Algorithm (options : ChunkerOpts) (data : GoSlice) (n : Nat) : Option Nat :=
  if n > data.len then none
  else if n ≤ options.MinSize then some n
  else
    match readWindow data options.MinSize with
    | none => none
    | some outBufWin =>
      ultraLoop data (effN options n) (effNormal options n) (effN options n)
        (options.MinSize + 8) 0 maskS outBufWin ((distOfList outBufWin : Nat) : Int)

/-- Outcome of the inner byte loop when the running distance is recomputed
from scratch at each test (no incremental state to report). -/
inductive ScanRes2 where
  | hit (j : Nat)
  | done
  | oob
deriving DecidableEq

/-- Variant of the inner byte loop whose mask test recomputes the Hamming
distance of the current sliding window `data[i+j-8 .. i+j)` from scratch,
instead of using the incrementally maintained `dist`. Reads the same bytes at
the same indices as `scanWord`. -/
def scanWordRe (d : GoSlice) (i mask : Nat) : Nat → Nat → ScanRes2
  | 0, _ => ScanRes2.done
  | rem+1, j =>
    if distOfList (window d (i + j - 8)) &&& mask = 0 then ScanRes2.hit j
    else
      match readByte d (i + j - 8), readByte d (i + j) with
      | some _, some _ => scanWordRe d i mask rem (j+1)
      | _, _ => ScanRes2.oob

/-- Outer loop of the recompute-from-scratch variant: identical to `ultraLoop`
except that the mask test uses the freshly recomputed window distance. -/
def ultraLoopRe (d : GoSlice) (n normalSize : Nat) (fuel i cnt mask : Nat)
    (outBufWin : List Nat) : Option Nat :=
  if i + 8 ≤ n then
    match fuel with
    | 0 => none
    | f + 1 =>
      let mask2 := if normalSize ≤ i then maskL else mask
      match readWindow d i with
      | none => none
      | some inBufWin =>
        if inBufWin = outBufWin then
          if cnt + 1 ≥ lowEntropyStringThreshold then some (i + 8)
          else ultraLoopRe d n normalSize f (i+8) (cnt+1) mask2 outBufWin
        else
          match scanWordRe d i mask2 8 0 with
          | ScanRes2.hit j => some (i + j)
          | ScanRes2.oob => none
          | ScanRes2.done => ultraLoopRe d n normalSize f (i+8) 0 mask2 inBufWin
  else some n

/-- The byte-indexed kernel with the Hamming distance recomputed from scratch
at every mask test (reference variant for the incremental-update invariant). -/
def AlgorithmRe (options : ChunkerOpts) (data : GoSlice) (n : Nat) : Option Nat :=
  if n > data.len then none
  else if n ≤ options.MinSize then some n
  else
    match readWindow data options.MinSize with
    | none => none
    | some outBufWin =>
      ultraLoopRe data (effN options n) (effNormal options n) (effN options n)
        (options.MinSize + 8) 0 maskS outBufWin

/-- Outer loop variant in which the mask is not threaded state but recomputed
at each iteration from the position: strict `maskS` while `i` is below the
effective normal size, relaxed `maskL` once `i` is at or above it. -/
def ultraLoopMaskPos (d : GoSlice) (n normalSize : Nat) (fuel i cnt : Nat)
    (outBufWin : List Nat) (dist : Int) : Option Nat :=
  if i + 8 ≤ n then
    match fuel with
    | 0 => none
    | f + 1 =>
      let mask2 := if i < normalSize then maskS else maskL
      match readWindow d i with
      | none => none
      | some inBufWin =>
        if inBufWin = outBufWin then
          if cnt + 1 ≥ lowEntropyStringThreshold then some (i + 8)
          else ultraLoopMaskPos d n normalSize f (i+8) (cnt+1) outBufWin dist
        else
          match scanWord d i mask2 8 0 dist with
          | ScanRes.hit j => some (i + j)
          | ScanRes.oob => none
          | ScanRes.done dist2 => ultraLoopMaskPos d n normalSize f (i+8) 0 inBufWin dist2
  else some n

/-- The byte-indexed kernel with the mask chosen pointwise by position, as the
spec states it: `maskS` for `i < effNormal`, `maskL` for `i ≥ effNormal`. -/
def AlgorithmMaskPos (options : ChunkerOpts) (data : GoSlice) (n : Nat) : Option Nat :=
  if n > data.len then none
  else if n ≤ options.MinSize then some n
  else
    match readWindow data options.MinSize with
    | none => none
    | some outBufWin =>
      ultraLoopMaskPos data (effN options n) (effNormal options n) (effN options n)
        (options.MinSize + 8) 0 outBufWin ((distOfList outBufWin : Nat) : Int)

end UltraCDC

namespace UltraCDCW

/-- Strict mask of the word-scanning revision. -/
def MaskS : Nat := 0x2F

/-- Relaxed mask of the word-scanning revision. -/
def MaskL : Nat := 0x2C

/-- Low Entropy String Threshold. -/
def LEST : Nat := 64

/-- Option validation of the word-scanning revision: additionally demands
`MinSize % 8 == 0`. -/
def Validate (options : ChunkerOpts) : Option Err :=
  if options.MinSize % 8 ≠ 0 then some Err.ErrMinSizeNotMultipleOf8
  else if options.NormalSize = 0 ∨ options.NormalSize < 64 ∨
      options.NormalSize > 1024*1024*1024 then some Err.ErrNormalSize
  else if options.MinSize < 64 ∨ options.MinSize > 1024*1024*1024 ∨
      options.MinSize ≥ options.NormalSize then some Err.ErrMinSize
  else if options.MaxSize < 64 ∨ options.MaxSize > 1024*1024*1024 ∨
      options.MaxSize ≤ options.NormalSize then some Err.ErrMaxSize
  else none

/-- DefaultOptions of the word-scanning revision: 2 KiB / 8 KiB / 64 KiB. -/
def DefaultOptions : ChunkerOpts :=
  { MinSize := 2 * 1024, NormalSize := 8 * 1024, MaxSize := 64 * 1024 }

/-- Length of `bytesToUint64(data)`: `len(data) / 8` little-endian words
(`nil`, i.e. length 0, when `len(data) < 8`). -/
def srcLen (d : GoSlice) : Nat := d.len / 8

/-- `src[k]`: the k-th little-endian word, represented by its 8 bytes;
panics (`none`) out of range. -/
def readWord (d : GoSlice) (k : Nat) : Option (List Nat) :=
  if k < srcLen d then some (window d (8 * k)) else none

/-- Inner byte loop of the word-scanning revision: the same masked test on the
incrementally maintained distance, but the slid-out and slid-in bytes are
extracted from the two 64-bit register windows (`byte(win >> (j << 3))`), so
no memory read (and no panic) occurs. -/
def scanWordW (mask : Nat) (outBufWin inBufWin : List Nat) : Nat → Nat → Int → ScanRes
  | 0, _, dist => ScanRes.done dist
  | rem+1, j, dist =>
    if goUint64 dist &&& mask = 0 then ScanRes.hit j
    else
      scanWordW mask outBufWin inBufWin rem (j+1)
        (dist + ((hammingDistanceTo0xAA (inBufWin.getD j 0) : Int)
               - (hammingDistanceTo0xAA (outBufWin.getD j 0) : Int)))

/-- Outer loop `for i < n` of the word-scanning revision: latches `MaskL` only
on exact equality `i == NormalSize`, returns the error value `0` when the word
index `k` runs past `len(src)`, cuts at `i + 8` on a LEST run or a mask hit. -/
def wLoop (d : GoSlice) (n NormalSize : Nat) (fuel i k cnt mask : Nat)
    (outBufWin : List Nat) (dist : Int) : Option Nat :=
  if i < n then
    match fuel with
    | 0 => none
    | f + 1 =>
      let mask2 := if i = NormalSize then MaskL else mask
      if srcLen d ≤ k then some 0
      else
        let inBufWin := window d (8 * k)
        if inBufWin = outBufWin then
          if cnt + 1 = LEST then some (i + 8)
          else wLoop d n NormalSize f (i+8) (k+1) (cnt+1) mask2 outBufWin dist
        else
          match scanWordW mask2 outBufWin inBufWin 8 0 dist with
          | ScanRes.hit _ => some (i + 8)
          | ScanRes.oob => none
          | ScanRes.done dist2 => wLoop d n NormalSize f (i+8) (k+1) 0 mask2 inBufWin dist2
  else some n

/-- The word-aligned-scanning UltraCDC revision (`pass` is debugging
scaffolding that only feeds diagnostic prints). `none` models a Go panic;
`some 0` is the in-band error return of this revision. -/
def Algorithm (options : ChunkerOpts) (data : GoSlice) (n pass : Nat) : Option Nat :=
  if n > data.len then none
  else if n ≤ options.MinSize then some n
  else
    match readWord data (options.MinSize / 8) with
    | none => none
    | some outBufWin =>
      wLoop data (effN options n) (effNormal options n) (effN options n)
        (options.MinSize + 8) (options.MinSize / 8 + 1) 0 MaskS outBufWin
        ((distOfList outBufWin : Nat) : Int)

end UltraCDCW

namespace UltraCDC

theorem ultraLoop_exit (d : GoSlice) (n ns fuel i cnt mask : Nat) (ow : List Nat) (dist : Int)
    (h : ¬ i + 8 ≤ n) : ultraLoop d n ns fuel i cnt mask ow dist = some n := by
  rw [ultraLoop.eq_def, if_neg h]

theorem ultraLoop_succ_some (d : GoSlice) (n ns f i cnt mask : Nat) (ow w : List Nat)
    (dist : Int) (h : i + 8 ≤ n) (hw : readWindow d i = some w) :
    ultraLoop d n ns (f+1) i cnt mask ow dist =
    (if w = ow then
       if cnt + 1 ≥ lowEntropyStringThreshold then some (i+8)
       else ultraLoop d n ns f (i+8) (cnt+1) (if ns ≤ i then maskL else mask) ow dist
     else
       match scanWord d i (if ns ≤ i then maskL else mask) 8 0 dist with
       | ScanRes.hit j => some (i + j)
       | ScanRes.oob => none
       | ScanRes.done dist2 =>
           ultraLoop d n ns f (i+8) 0 (if ns ≤ i then maskL else mask) w dist2) := by
  rw [ultraLoop.eq_def, if_pos h, hw]

theorem ultraLoop_succ_none (d : GoSlice) (n ns f i cnt mask : Nat) (ow : List Nat)
    (dist : Int) (h : i + 8 ≤ n) (hw : readWindow d i = none) :
    ultraLoop d n ns (f+1) i cnt mask ow dist = none := by
  rw [ultraLoop.eq_def, if_pos h, hw]

end UltraCDC

theorem readWindow_eq_some (d : GoSlice) (i : Nat) (h : i + 8 ≤ d.len) :
    readWindow d i = some (window d i) := by
  rw [readWindow, if_pos h]

theorem readByte_eq_some (d : GoSlice) (i : Nat) (h : i < d.len) :
    readByte d i = some (d.get i) := by
  rw [readByte, if_pos h]

theorem popCount8_le (x : Nat) : popCount8 x ≤ 8 := by
  unfold popCount8
  have h0 : (x >>> 0) &&& 1 ≤ 1 := Nat.and_le_right
  have h1 : (x >>> 1) &&& 1 ≤ 1 := Nat.and_le_right
  have h2 : (x >>> 2) &&& 1 ≤ 1 := Nat.and_le_right
  have h3 : (x >>> 3) &&& 1 ≤ 1 := Nat.and_le_right
  have h4 : (x >>> 4) &&& 1 ≤ 1 := Nat.and_le_right
  have h5 : (x >>> 5) &&& 1 ≤ 1 := Nat.and_le_right
  have h6 : (x >>> 6) &&& 1 ≤ 1 := Nat.and_le_right
  have h7 : (x >>> 7) &&& 1 ≤ 1 := Nat.and_le_right
  omega

theorem hammingDistanceTo0xAA_le (b : Nat) : hammingDistanceTo0xAA b ≤ 8 :=
  popCount8_le _

theorem distOfList_window_le (d : GoSlice) (i : Nat) : distOfList (window d i) ≤ 64 := by
  have h0 := hammingDistanceTo0xAA_le (d.get i)
  have h1 := hammingDistanceTo0xAA_le (d.get (i+1))
  have h2 := hammingDistanceTo0xAA_le (d.get (i+2))
  have h3 := hammingDistanceTo0xAA_le (d.get (i+3))
  have h4 := hammingDistanceTo0xAA_le (d.get (i+4))
  have h5 := hammingDistanceTo0xAA_le (d.get (i+5))
  have h6 := hammingDistanceTo0xAA_le (d.get (i+6))
  have h7 := hammingDistanceTo0xAA_le (d.get (i+7))
  simp [distOfList, window]
  omega

theorem goUint64_ofNat (m : Nat) (h : m < 2^64) : goUint64 (m : Int) = m := by
  unfold goUint64
  rw [Int.emod_eq_of_lt (by positivity) (by exact_mod_cast h)]
  simp

theorem distSlide (d : GoSlice) (a : Nat) :
    distOfList (window d (a+1)) + hammingDistanceTo0xAA (d.get a)
      = distOfList (window d a) + hammingDistanceTo0xAA (d.get (a+8)) := by
  simp [distOfList, window, Nat.add_assoc]
  ring

namespace UltraCDC

theorem scanWord_cases (d : GoSlice) (i mask : Nat) (hd : i + 8 ≤ d.len) :
    ∀ rem j dist, j + rem ≤ 8 →
      (∃ j2, scanWord d i mask rem j dist = ScanRes.hit j2 ∧ j ≤ j2 ∧ j2 < 8) ∨
      (∃ d2, scanWord d i mask rem j dist = ScanRes.done d2) := by
  intro rem
  induction rem with
  | zero => intro j dist _; exact Or.inr ⟨dist, rfl⟩
  | succ r ih =>
    intro j dist hj
    rw [scanWord]
    by_cases ht : goUint64 dist &&& mask = 0
    · rw [if_pos ht]
      exact Or.inl ⟨j, rfl, le_refl j, by omega⟩
    · rw [if_neg ht]
      have hb1 : i + j - 8 < d.len := by omega
      have hb2 : i + j < d.len := by omega
      rw [readByte_eq_some d _ hb1, readByte_eq_some d _ hb2]
      have := ih (j+1) (dist + ((hammingDistanceTo0xAA (d.get (i+j)) : Int)
                   - (hammingDistanceTo0xAA (d.get (i+j-8)) : Int))) (by omega)
      rcases this with ⟨j2, he, hle, hlt⟩ | ⟨d2, he⟩
      · exact Or.inl ⟨j2, he, by omega, hlt⟩
      · exact Or.inr ⟨d2, he⟩

theorem ultraLoop_total (d : GoSlice) (n ns : Nat) (hd : n ≤ d.len) :
    ∀ fuel i cnt mask ow dist, n ≤ 8 * fuel + i →
      ∃ c, ultraLoop d n ns fuel i cnt mask ow dist = some c ∧
        (c = n ∨ i ≤ c) ∧ c ≤ n := by
  intro fuel
  induction fuel with
  | zero =>
    intro i cnt mask ow dist hf
    have h : ¬ i + 8 ≤ n := by omega
    exact ⟨n, ultraLoop_exit d n ns 0 i cnt mask ow dist h, Or.inl rfl, le_refl n⟩
  | succ f ih =>
    intro i cnt mask ow dist hf
    by_cases h : i + 8 ≤ n
    · rw [ultraLoop_succ_some d n ns f i cnt mask ow (window d i) dist h
        (readWindow_eq_some d i (by omega))]
      by_cases he : window d i = ow
      · rw [if_pos he]
        by_cases hc : cnt + 1 ≥ lowEntropyStringThreshold
        · rw [if_pos hc]
          exact ⟨i + 8, rfl, Or.inr (by omega), h⟩
        · rw [if_neg hc]
          obtain ⟨c, hc2, hor, hcn⟩ := ih (i+8) (cnt+1)
            (if ns ≤ i then maskL else mask) ow dist (by omega)
          exact ⟨c, hc2, by omega, hcn⟩
      · rw [if_neg he]
        rcases scanWord_cases d i (if ns ≤ i then maskL else mask) (by omega) 8 0 dist
            (by omega) with ⟨j2, hs, _, hlt⟩ | ⟨d2, hs⟩
        · rw [hs]
          exact ⟨i + j2, rfl, Or.inr (by omega), by omega⟩
        · rw [hs]
          obtain ⟨c, hc2, hor, hcn⟩ := ih (i+8) 0
            (if ns ≤ i then maskL else mask) (window d i) d2 (by omega)
          exact ⟨c, hc2, by omega, hcn⟩
    · exact ⟨n, ultraLoop_exit d n ns (f+1) i cnt mask ow dist h, Or.inl rfl, le_refl n⟩

end UltraCDC

namespace UltraCDC

theorem validate_none_facts (o : ChunkerOpts) (hv : Validate o = none) :
    64 ≤ o.MinSize ∧ o.MinSize < o.NormalSize ∧ o.NormalSize < o.MaxSize := by
  unfold Validate at hv
  split_ifs at hv with h1 h2 h3
  omega

theorem effN_le (o : ChunkerOpts) (n : Nat) : effN o n ≤ n := by
  unfold effN; split <;> omega

theorem effN_eq_min (o : ChunkerOpts) (n : Nat) : effN o n = min n o.MaxSize := by
  unfold effN; split <;> omega

theorem algorithm_short (o : ChunkerOpts) (d : GoSlice) (n : Nat)
    (hn : n ≤ d.len) (hs : n ≤ o.MinSize) : Algorithm o d n = some n := by
  unfold Algorithm
  rw [if_neg (by omega), if_pos hs]

theorem algorithm_total (o : ChunkerOpts) (d : GoSlice) (n : Nat)
    (hv : Validate o = none) (hn : n ≤ d.len) (hb : o.MinSize + 8 ≤ d.len)
    (hlt : o.MinSize < n) :
    ∃ c, Algorithm o d n = some c ∧ o.MinSize < c ∧ c ≤ min n o.MaxSize := by
  obtain ⟨h64, hmn, hnm⟩ := validate_none_facts o hv
  unfold Algorithm
  rw [if_neg (by omega), if_neg (by omega), readWindow_eq_some d o.MinSize hb]
  have hN1 : effN o n ≤ d.len := le_trans (effN_le o n) hn
  have hlt2 : o.MinSize < effN o n := by
    rw [effN_eq_min]; omega
  obtain ⟨c, hc, hor, hcn⟩ := ultraLoop_total d (effN o n) (effNormal o n) hN1
    (effN o n) (o.MinSize + 8) 0 maskS (window d o.MinSize)
    ((distOfList (window d o.MinSize) : Nat) : Int) (by omega)
  refine ⟨c, hc, ?_, ?_⟩
  · omega
  · rw [← effN_eq_min]; exact hcn

end UltraCDC

theorem window_congr (d1 d2 : GoSlice) (i : Nat)
    (h : ∀ t, i ≤ t → t < i + 8 → d1.get t = d2.get t) : window d1 i = window d2 i := by
  unfold window
  rw [h i (by omega) (by omega), h (i+1) (by omega) (by omega), h (i+2) (by omega) (by omega),
    h (i+3) (by omega) (by omega), h (i+4) (by omega) (by omega), h (i+5) (by omega) (by omega),
    h (i+6) (by omega) (by omega), h (i+7) (by omega) (by omega)]

namespace UltraCDC

theorem ultraLoop_zero (d : GoSlice) (n ns i cnt mask : Nat) (ow : List Nat) (dist : Int)
    (h : i + 8 ≤ n) : ultraLoop d n ns 0 i cnt mask ow dist = none := by
  rw [ultraLoop.eq_def, if_pos h]

theorem scanWord_congr (d1 d2 : GoSlice) (n i mask : Nat)
    (hag : ∀ t, t < n → d1.get t = d2.get t)
    (h1 : n ≤ d1.len) (h2 : n ≤ d2.len) (hi : 8 ≤ i) (hn : i + 8 ≤ n) :
    ∀ rem j dist, j + rem ≤ 8 →
      scanWord d1 i mask rem j dist = scanWord d2 i mask rem j dist := by
  intro rem
  induction rem with
  | zero => intro j dist _; rfl
  | succ r ih =>
    intro j dist hj
    rw [scanWord, scanWord]
    by_cases ht : goUint64 dist &&& mask = 0
    · simp only [if_pos ht]
    · simp only [if_neg ht]
      have hb1 : i + j - 8 < n := by omega
      have hb2 : i + j < n := by omega
      rw [readByte_eq_some d1 _ (by omega), readByte_eq_some d2 _ (by omega),
        readByte_eq_some d1 _ (by omega), readByte_eq_some d2 _ (by omega),
        hag (i+j-8) hb1, hag (i+j) hb2]
      exact ih (j+1) _ (by omega)

theorem ultraLoop_congr (d1 d2 : GoSlice) (n ns : Nat)
    (hag : ∀ t, t < n → d1.get t = d2.get t) (h1 : n ≤ d1.len) (h2 : n ≤ d2.len) :
    ∀ fuel i cnt mask ow dist, 8 ≤ i →
      ultraLoop d1 n ns fuel i cnt mask ow dist = ultraLoop d2 n ns fuel i cnt mask ow dist := by
  intro fuel
  induction fuel with
  | zero =>
    intro i cnt mask ow dist hi
    by_cases h : i + 8 ≤ n
    · rw [ultraLoop_zero d1 n ns i cnt mask ow dist h,
        ultraLoop_zero d2 n ns i cnt mask ow dist h]
    · rw [ultraLoop_exit d1 n ns 0 i cnt mask ow dist h,
        ultraLoop_exit d2 n ns 0 i cnt mask ow dist h]
  | succ f ih =>
    intro i cnt mask ow dist hi
    by_cases h : i + 8 ≤ n
    · have hwin : window d1 i = window d2 i :=
        window_congr d1 d2 i (fun t ht1 ht2 => hag t (by omega))
      rw [ultraLoop_succ_some d1 n ns f i cnt mask ow (window d1 i) dist h
          (readWindow_eq_some d1 i (by omega)),
        ultraLoop_succ_some d2 n ns f i cnt mask ow (window d2 i) dist h
          (readWindow_eq_some d2 i (by omega)), ← hwin]
      by_cases he : window d1 i = ow
      · simp only [if_pos he]
        by_cases hc : cnt + 1 ≥ lowEntropyStringThreshold
        · simp only [if_pos hc]
        · simp only [if_neg hc]
          exact ih (i+8) (cnt+1) _ ow dist (by omega)
      · simp only [if_neg he]
        rw [scanWord_congr d1 d2 n i _ hag h1 h2 hi h 8 0 dist (by omega)]
        cases scanWord d2 i (if ns ≤ i then maskL else mask) 8 0 dist with
        | hit j => rfl
        | oob => rfl
        | done dist2 => exact ih (i+8) 0 _ (window d1 i) dist2 (by omega)
    · rw [ultraLoop_exit d1 n ns (f+1) i cnt mask ow dist h,
        ultraLoop_exit d2 n ns (f+1) i cnt mask ow dist h]

theorem algorithm_congr (o : ChunkerOpts) (d1 d2 : GoSlice) (n : Nat)
    (h1 : n ≤ d1.len) (h2 : n ≤ d2.len)
    (hb1 : o.MinSize + 8 ≤ d1.len) (hb2 : o.MinSize + 8 ≤ d2.len)
    (hag : ∀ t, t < n → d1.get t = d2.get t) :
    Algorithm o d1 n = Algorithm o d2 n := by
  unfold Algorithm
  rw [if_neg (show ¬ n > d1.len by omega), if_neg (show ¬ n > d2.len by omega)]
  by_cases hs : n ≤ o.MinSize
  · simp only [if_pos hs]
  · simp only [if_neg hs]
    rw [readWindow_eq_some d1 o.MinSize hb1, readWindow_eq_some d2 o.MinSize hb2]
    by_cases hbig : o.MinSize + 8 + 8 ≤ effN o n
    · have hwin : window d1 o.MinSize = window d2 o.MinSize := by
        refine window_congr d1 d2 o.MinSize (fun t ht1 ht2 => hag t ?_)
        have := effN_le o n
        omega
      rw [hwin]
      exact ultraLoop_congr d1 d2 (effN o n) (effNormal o n)
        (fun t ht => hag t (by have := effN_le o n; omega))
        (le_trans (effN_le o n) h1) (le_trans (effN_le o n) h2)
        (effN o n) (o.MinSize + 8) 0 maskS (window d2 o.MinSize) _ (by omega)
    · show ultraLoop d1 (effN o n) (effNormal o n) (effN o n) (o.MinSize + 8) 0 maskS
          (window d1 o.MinSize) ((distOfList (window d1 o.MinSize) : Nat) : Int)
        = ultraLoop d2 (effN o n) (effNormal o n) (effN o n) (o.MinSize + 8) 0 maskS
          (window d2 o.MinSize) ((distOfList (window d2 o.MinSize) : Nat) : Int)
      rw [ultraLoop_exit d1 _ _ _ _ _ _ _ _ (by omega),
        ultraLoop_exit d2 _ _ _ _ _ _ _ _ (by omega)]

end UltraCDC

namespace UltraCDC

theorem ultraLoopMaskPos_exit (d : GoSlice) (n ns fuel i cnt : Nat) (ow : List Nat) (dist : Int)
    (h : ¬ i + 8 ≤ n) : ultraLoopMaskPos d n ns fuel i cnt ow dist = some n := by
  rw [ultraLoopMaskPos.eq_def, if_neg h]

theorem ultraLoopMaskPos_zero (d : GoSlice) (n ns i cnt : Nat) (ow : List Nat) (dist : Int)
    (h : i + 8 ≤ n) : ultraLoopMaskPos d n ns 0 i cnt ow dist = none := by
  rw [ultraLoopMaskPos.eq_def, if_pos h]

theorem ultraLoopMaskPos_succ_some (d : GoSlice) (n ns f i cnt : Nat) (ow w : List Nat)
    (dist : Int) (h : i + 8 ≤ n) (hw : readWindow d i = some w) :
    ultraLoopMaskPos d n ns (f+1) i cnt ow dist =
    (if w = ow then
       if cnt + 1 ≥ lowEntropyStringThreshold then some (i+8)
       else ultraLoopMaskPos d n ns f (i+8) (cnt+1) ow dist
     else
       match scanWord d i (if i < ns then maskS else maskL) 8 0 dist with
       | ScanRes.hit j => some (i + j)
       | ScanRes.oob => none
       | ScanRes.done dist2 => ultraLoopMaskPos d n ns f (i+8) 0 w dist2) := by
  rw [ultraLoopMaskPos.eq_def, if_pos h, hw]

theorem ultraLoopMaskPos_succ_none (d : GoSlice) (n ns f i cnt : Nat) (ow : List Nat)
    (dist : Int) (h : i + 8 ≤ n) (hw : readWindow d i = none) :
    ultraLoopMaskPos d n ns (f+1) i cnt ow dist = none := by
  rw [ultraLoopMaskPos.eq_def, if_pos h, hw]

theorem ultraLoop_eq_maskPos (d : GoSlice) (n ns : Nat) :
    ∀ fuel i cnt mask ow dist, (i < ns → mask = maskS) →
      ultraLoop d n ns fuel i cnt mask ow dist = ultraLoopMaskPos d n ns fuel i cnt ow dist := by
  intro fuel
  induction fuel with
  | zero =>
    intro i cnt mask ow dist hm
    by_cases h : i + 8 ≤ n
    · rw [ultraLoop_zero d n ns i cnt mask ow dist h, ultraLoopMaskPos_zero d n ns i cnt ow dist h]
    · rw [ultraLoop_exit d n ns 0 i cnt mask ow dist h, ultraLoopMaskPos_exit d n ns 0 i cnt ow dist h]
  | succ f ih =>
    intro i cnt mask ow dist hm
    have hmask : (if ns ≤ i then maskL else mask) = (if i < ns then maskS else maskL) := by
      by_cases hns : ns ≤ i
      · rw [if_pos hns, if_neg (by omega)]
      · rw [if_neg hns, if_pos (by omega), hm (by omega)]
    have hinv : i + 8 < ns → (if ns ≤ i then maskL else mask) = maskS := by
      intro h8
      rw [hmask, if_pos (by omega)]
    by_cases h : i + 8 ≤ n
    · cases hw : readWindow d i with
      | none =>
        rw [ultraLoop_succ_none d n ns f i cnt mask ow dist h hw,
          ultraLoopMaskPos_succ_none d n ns f i cnt ow dist h hw]
      | some w =>
        rw [ultraLoop_succ_some d n ns f i cnt mask ow w dist h hw,
          ultraLoopMaskPos_succ_some d n ns f i cnt ow w dist h hw]
        by_cases he : w = ow
        · simp only [if_pos he]
          by_cases hc : cnt + 1 ≥ lowEntropyStringThreshold
          · simp only [if_pos hc]
          · simp only [if_neg hc]
            exact ih (i+8) (cnt+1) _ ow dist hinv
        · simp only [if_neg he]
          rw [hmask]
          cases scanWord d i (if i < ns then maskS else maskL) 8 0 dist with
          | hit j => rfl
          | oob => rfl
          | done dist2 =>
            refine ih (i+8) 0 _ w dist2 ?_
            intro h8
            rw [if_pos (by omega)]
    · rw [ultraLoop_exit d n ns (f+1) i cnt mask ow dist h,
        ultraLoopMaskPos_exit d n ns (f+1) i cnt ow dist h]

theorem algorithm_eq_maskPos (options : ChunkerOpts) (data : GoSlice) (n : Nat) :
    Algorithm options data n = AlgorithmMaskPos options data n := by
  unfold Algorithm AlgorithmMaskPos
  by_cases h1 : n > data.len
  · rw [if_pos h1, if_pos h1]
  · rw [if_neg h1, if_neg h1]
    by_cases h2 : n ≤ options.MinSize
    · rw [if_pos h2, if_pos h2]
    · rw [if_neg h2, if_neg h2]
      cases hw : readWindow data options.MinSize with
      | none => rfl
      | some w =>
        exact ultraLoop_eq_maskPos data (effN options n) (effNormal options n)
          (effN options n) (options.MinSize + 8) 0 maskS w _ (fun _ => rfl)

end UltraCDC

theorem distOfList_window_lt64 (d : GoSlice) (i : Nat) :
    distOfList (window d i) < 2^64 :=
  lt_of_le_of_lt (distOfList_window_le d i) (by norm_num)

namespace UltraCDC

theorem ultraLoopRe_exit (d : GoSlice) (n ns fuel i cnt mask : Nat) (ow : List Nat)
    (h : ¬ i + 8 ≤ n) : ultraLoopRe d n ns fuel i cnt mask ow = some n := by
  rw [ultraLoopRe.eq_def, if_neg h]

theorem ultraLoopRe_zero (d : GoSlice) (n ns i cnt mask : Nat) (ow : List Nat)
    (h : i + 8 ≤ n) : ultraLoopRe d n ns 0 i cnt mask ow = none := by
  rw [ultraLoopRe.eq_def, if_pos h]

theorem ultraLoopRe_succ_some (d : GoSlice) (n ns f i cnt mask : Nat) (ow w : List Nat)
    (h : i + 8 ≤ n) (hw : readWindow d i = some w) :
    ultraLoopRe d n ns (f+1) i cnt mask ow =
    (if w = ow then
       if cnt + 1 ≥ lowEntropyStringThreshold then some (i+8)
       else ultraLoopRe d n ns f (i+8) (cnt+1) (if ns ≤ i then maskL else mask) ow
     else
       match scanWordRe d i (if ns ≤ i then maskL else mask) 8 0 with
       | ScanRes2.hit j => some (i + j)
       | ScanRes2.oob => none
       | ScanRes2.done => ultraLoopRe d n ns f (i+8) 0 (if ns ≤ i then maskL else mask) w) := by
  rw [ultraLoopRe.eq_def, if_pos h, hw]

theorem ultraLoopRe_succ_none (d : GoSlice) (n ns f i cnt mask : Nat) (ow : List Nat)
    (h : i + 8 ≤ n) (hw : readWindow d i = none) :
    ultraLoopRe d n ns (f+1) i cnt mask ow = none := by
  rw [ultraLoopRe.eq_def, if_pos h, hw]

theorem scanWord_eq_re (d : GoSlice) (i mask : Nat) (hi : 8 ≤ i) :
    ∀ rem j, j + rem = 8 →
      (scanWordRe d i mask rem j = ScanRes2.oob ∧
        scanWord d i mask rem j ((distOfList (window d (i + j - 8)) : Nat) : Int) = ScanRes.oob) ∨
      (∃ j2, scanWordRe d i mask rem j = ScanRes2.hit j2 ∧
        scanWord d i mask rem j ((distOfList (window d (i + j - 8)) : Nat) : Int) = ScanRes.hit j2) ∨
      (scanWordRe d i mask rem j = ScanRes2.done ∧
        scanWord d i mask rem j ((distOfList (window d (i + j - 8)) : Nat) : Int)
          = ScanRes.done ((distOfList (window d i) : Nat) : Int)) := by
  intro rem
  induction rem with
  | zero =>
    intro j hj
    right; right
    constructor
    · rfl
    · rw [scanWord]
      have : i + j - 8 = i := by omega
      rw [this]
  | succ r ih =>
    intro j hj
    rw [scanWordRe, scanWord]
    rw [goUint64_ofNat _ (distOfList_window_lt64 d (i + j - 8))]
    by_cases ht : distOfList (window d (i + j - 8)) &&& mask = 0
    · right; left
      exact ⟨j, by rw [if_pos ht], by rw [if_pos ht]⟩
    · rw [if_neg ht, if_neg ht]
      cases hr1 : readByte d (i + j - 8) with
      | none => left; exact ⟨rfl, rfl⟩
      | some outByte =>
        cases hr2 : readByte d (i + j) with
        | none => left; exact ⟨rfl, rfl⟩
        | some inByte =>
          have hv1 : outByte = d.get (i + j - 8) := by
            unfold readByte at hr1
            split at hr1
            · exact (Option.some.injEq _ _ ▸ hr1.symm : _)
            · exact absurd hr1 (by simp)
          have hv2 : inByte = d.get (i + j) := by
            unfold readByte at hr2
            split at hr2
            · exact (Option.some.injEq _ _ ▸ hr2.symm : _)
            · exact absurd hr2 (by simp)
          have hslide := distSlide d (i + j - 8)
          have e1 : i + j - 8 + 1 = i + (j+1) - 8 := by omega
          have e2 : i + j - 8 + 8 = i + j := by omega
          rw [e1, e2] at hslide
          dsimp only
          have hdist : ((distOfList (window d (i + j - 8)) : Nat) : Int)
              + ((hammingDistanceTo0xAA inByte : Int) - (hammingDistanceTo0xAA outByte : Int))
              = ((distOfList (window d (i + (j+1) - 8)) : Nat) : Int) := by
            rw [hv1, hv2]
            omega
          rw [hdist]
          exact ih (j+1) (by omega)

theorem ultraLoop_eq_re (d : GoSlice) (n ns : Nat) :
    ∀ fuel i cnt mask, 8 ≤ i →
      ultraLoop d n ns fuel i cnt mask (window d (i - 8))
          ((distOfList (window d (i - 8)) : Nat) : Int)
        = ultraLoopRe d n ns fuel i cnt mask (window d (i - 8)) := by
  intro fuel
  induction fuel with
  | zero =>
    intro i cnt mask hi
    by_cases h : i + 8 ≤ n
    · rw [ultraLoop_zero d n ns i cnt mask _ _ h, ultraLoopRe_zero d n ns i cnt mask _ h]
    · rw [ultraLoop_exit d n ns 0 i cnt mask _ _ h, ultraLoopRe_exit d n ns 0 i cnt mask _ h]
  | succ f ih =>
    intro i cnt mask hi
    by_cases h : i + 8 ≤ n
    · cases hw : readWindow d i with
      | none =>
        rw [ultraLoop_succ_none d n ns f i cnt mask _ _ h hw,
          ultraLoopRe_succ_none d n ns f i cnt mask _ h hw]
      | some w =>
        have hwv : w = window d i := by
          unfold readWindow at hw
          split at hw
          · exact (Option.some.injEq _ _ ▸ hw.symm : _)
          · exact absurd hw (by simp)
        rw [ultraLoop_succ_some d n ns f i cnt mask _ w _ h hw,
          ultraLoopRe_succ_some d n ns f i cnt mask _ w h hw]
        by_cases he : w = window d (i - 8)
        · simp only [if_pos he]
          by_cases hc : cnt + 1 ≥ lowEntropyStringThreshold
          · simp only [if_pos hc]
          · simp only [if_neg hc]
            have hrw : window d (i - 8) = window d (i + 8 - 8) := by
              have : i + 8 - 8 = i := by omega
              rw [this, ← hwv, he]
            have hre := ih (i+8) (cnt+1) (if ns ≤ i then maskL else mask) (by omega)
            rw [← hrw] at hre
            exact hre
        · simp only [if_neg he]
          have hscan := scanWord_eq_re d i (if ns ≤ i then maskL else mask) hi 8 0 (by omega)
          have e0 : i + 0 - 8 = i - 8 := by omega
          rw [e0] at hscan
          rcases hscan with ⟨hre, hsc⟩ | ⟨j2, hre, hsc⟩ | ⟨hre, hsc⟩
          · rw [hre, hsc]
          · rw [hre, hsc]
          · rw [hre, hsc]
            have hrw : window d i = window d (i + 8 - 8) := by
              have : i + 8 - 8 = i := by omega
              rw [this]
            have hre2 := ih (i+8) 0 (if ns ≤ i then maskL else mask) (by omega)
            rw [← hrw] at hre2
            rw [hwv]
            exact hre2
    · rw [ultraLoop_exit d n ns (f+1) i cnt mask _ _ h,
        ultraLoopRe_exit d n ns (f+1) i cnt mask _ h]

theorem algorithm_eq_re (options : ChunkerOpts) (data : GoSlice) (n : Nat) :
    Algorithm options data n = AlgorithmRe options data n := by
  unfold Algorithm AlgorithmRe
  by_cases h1 : n > data.len
  · rw [if_pos h1, if_pos h1]
  · rw [if_neg h1, if_neg h1]
    by_cases h2 : n ≤ options.MinSize
    · rw [if_pos h2, if_pos h2]
    · rw [if_neg h2, if_neg h2]
      cases hw : readWindow data options.MinSize with
      | none => rfl
      | some w =>
        have hwv : w = window data options.MinSize := by
          unfold readWindow at hw
          split at hw
          · exact (Option.some.injEq _ _ ▸ hw.symm : _)
          · exact absurd hw (by simp)
        show ultraLoop data (effN options n) (effNormal options n) (effN options n)
            (options.MinSize + 8) 0 maskS w ((distOfList w : Nat) : Int)
          = ultraLoopRe data (effN options n) (effNormal options n) (effN options n)
            (options.MinSize + 8) 0 maskS w
        have hms : window data options.MinSize = window data (options.MinSize + 8 - 8) := by
          have : options.MinSize + 8 - 8 = options.MinSize := by omega
          rw [this]
        rw [hwv, hms]
        exact ultraLoop_eq_re data (effN options n) (effNormal options n)
          (effN options n) (options.MinSize + 8) 0 maskS (by omega)
    
end UltraCDC

namespace UltraCDCW

theorem scanWordW_hit_lt (mask : Nat) (ow iw : List Nat) :
    ∀ rem j dist j2, scanWordW mask ow iw rem j dist = ScanRes.hit j2 → j2 < j + rem := by
  intro rem
  induction rem with
  | zero =>
    intro j dist j2 h
    rw [scanWordW] at h
    exact absurd h (by simp)
  | succ r ih =>
    intro j dist j2 h
    rw [scanWordW] at h
    by_cases ht : goUint64 dist &&& mask = 0
    · rw [if_pos ht] at h
      have : j2 = j := by
        have := h
        injection this with hj
        omega
      omega
    · rw [if_neg ht] at h
      have := ih (j+1) _ j2 h
      omega

theorem validate_characterization (o : ChunkerOpts) :
    (Validate o = none ↔
      (64 ≤ o.MinSize ∧ o.MinSize ≤ 2^30 ∧ 64 ≤ o.NormalSize ∧ o.NormalSize ≤ 2^30 ∧
       64 ≤ o.MaxSize ∧ o.MaxSize ≤ 2^30 ∧ o.MinSize < o.NormalSize ∧
       o.NormalSize < o.MaxSize ∧ o.MinSize % 8 = 0)) ∧
    (Validate o = some Err.ErrMinSizeNotMultipleOf8 → o.MinSize % 8 ≠ 0) ∧
    (Validate o = some Err.ErrNormalSize → ¬(64 ≤ o.NormalSize ∧ o.NormalSize ≤ 2^30)) ∧
    (Validate o = some Err.ErrMinSize →
      ¬(64 ≤ o.MinSize ∧ o.MinSize ≤ 2^30 ∧ o.MinSize < o.NormalSize)) ∧
    (Validate o = some Err.ErrMaxSize →
      ¬(64 ≤ o.MaxSize ∧ o.MaxSize ≤ 2^30 ∧ o.NormalSize < o.MaxSize)) := by
  unfold Validate
  split_ifs with h1 h2 h3 h4 <;>
    refine ⟨?_, ?_, ?_, ?_, ?_⟩ <;> simp <;> omega

end UltraCDCW

/-- C1 counterexample: with the validated triple (64, 128, 256), a 65-byte
all-zero input and n = 65 (so 0 ≤ n ≤ len(data) and n > minSize), the
byte-indexed kernel panics on the initial window slice data[64:72] instead of
returning a cutpoint in [minSize, min(n, maxSize)]. -/
theorem claim1_counterexample :
    UltraCDC.Validate ⟨64, 128, 256⟩ = none ∧
    (GoSlice.mk 65 fun _ => 0).len = 65 ∧
    UltraCDC.Algorithm ⟨64, 128, 256⟩ ⟨65, fun _ => 0⟩ 65 = none := by
  decide

/-- C1 (amended): for every validated options triple and every data, n with
n ≤ len(data): if n ≤ minSize then Algorithm returns exactly n; otherwise,
provided additionally that len(data) ≥ minSize + 8 (so the initial window
slice is in range), the returned cutpoint satisfies
minSize ≤ cutpoint ≤ min(n, maxSize). -/
theorem claim1_cutpoint_bounds (options : ChunkerOpts) (data : GoSlice) (n : Nat)
    (hv : UltraCDC.Validate options = none) (hn : n ≤ data.len) :
    (n ≤ options.MinSize → UltraCDC.Algorithm options data n = some n) ∧
    (options.MinSize + 8 ≤ data.len → options.MinSize < n →
      ∃ cut, UltraCDC.Algorithm options data n = some cut ∧
        options.MinSize ≤ cut ∧ cut ≤ min n options.MaxSize) := by
  constructor
  · intro hs
    exact UltraCDC.algorithm_short options data n hn hs
  · intro hb hlt
    obtain ⟨c, hc, hlow, hhigh⟩ := UltraCDC.algorithm_total options data n hv hn hb hlt
    exact ⟨c, hc, by omega, hhigh⟩

/-- C1 witness: the amended bound instantiated at the validated triple
(64, 128, 256), an 80-byte zero input and n = 80. -/
theorem claim1_witness :
    ∃ cut, UltraCDC.Algorithm ⟨64, 128, 256⟩ ⟨80, fun _ => 0⟩ 80 = some cut ∧
      64 ≤ cut ∧ cut ≤ min 80 256 :=
  (claim1_cutpoint_bounds ⟨64, 128, 256⟩ ⟨80, fun _ => 0⟩ 80 (by decide) (by decide)).2
    (by decide) (by decide)

/-- C2 counterexample: with the validated triple (64, 128, 256), a 70-byte
all-zero input and n = 70 ≤ len(data), the byte-indexed kernel does not
terminate normally: it panics on the out-of-range initial window slice
data[64:72], refuting totality over the preconditions as claimed. -/
theorem claim2_counterexample :
    UltraCDC.Validate ⟨64, 128, 256⟩ = none ∧
    (GoSlice.mk 70 fun _ => 0).len = 70 ∧
    UltraCDC.Algorithm ⟨64, 128, 256⟩ ⟨70, fun _ => 0⟩ 70 = none := by
  decide

/-- C2 (amended): the byte-indexed kernel is total once the buffer holds at
least minSize + 8 bytes (or n ≤ minSize): for every validated triple and
n ≤ len(data) it terminates normally with some cutpoint, without panicking,
and never returns the error value 0 when n > 0. -/
theorem claim2_totality (options : ChunkerOpts) (data : GoSlice) (n : Nat)
    (hv : UltraCDC.Validate options = none) (hn : n ≤ data.len)
    (hbuf : options.MinSize + 8 ≤ data.len ∨ n ≤ options.MinSize) :
    ∃ cut, UltraCDC.Algorithm options data n = some cut ∧ (0 < n → 0 < cut) := by
  by_cases hs : n ≤ options.MinSize
  · exact ⟨n, UltraCDC.algorithm_short options data n hn hs, fun h => h⟩
  · have hb : options.MinSize + 8 ≤ data.len := by
      rcases hbuf with h | h
      · exact h
      · omega
    obtain ⟨h64, _, _⟩ := UltraCDC.validate_none_facts options hv
    obtain ⟨c, hc, hlow, _⟩ := UltraCDC.algorithm_total options data n hv hn hb (by omega)
    exact ⟨c, hc, fun _ => by omega⟩

/-- C2 witness: totality instantiated at the validated triple (64, 128, 256),
a 100-byte zero input and n = 100. -/
theorem claim2_witness :
    ∃ cut, UltraCDC.Algorithm ⟨64, 128, 256⟩ ⟨100, fun _ => 0⟩ 100 = some cut ∧
      (0 < 100 → 0 < cut) :=
  claim2_totality ⟨64, 128, 256⟩ ⟨100, fun _ => 0⟩ 100 (by decide) (by decide)
    (Or.inl (by decide))

/-- C3 counterexample: two inputs that agree on their first n = 65 bytes but
have lengths 65 and 72 give different results under the validated triple
(64, 128, 256): the shorter panics (none) on the initial window slice while
the longer returns 65 — so the result does depend on len(data) beyond n. -/
theorem claim3_counterexample :
    (∀ t, t < 65 →
      (GoSlice.mk 65 fun _ => 0).get t = (GoSlice.mk 72 fun _ => 0).get t) ∧
    UltraCDC.Validate ⟨64, 128, 256⟩ = none ∧
    UltraCDC.Algorithm ⟨64, 128, 256⟩ ⟨65, fun _ => 0⟩ 65 = none ∧
    UltraCDC.Algorithm ⟨64, 128, 256⟩ ⟨72, fun _ => 0⟩ 65 = some 65 ∧
    UltraCDC.Algorithm ⟨64, 128, 256⟩ ⟨65, fun _ => 0⟩ 65 ≠
      UltraCDC.Algorithm ⟨64, 128, 256⟩ ⟨72, fun _ => 0⟩ 65 := by
  decide

/-- C3 (amended): the cut depends only on the first n bytes provided both
buffers hold at least minSize + 8 bytes: for a validated triple, n within both
lengths, and data1, data2 agreeing on [0, n), the kernel returns identical
results. -/
theorem claim3_prefix_determinism (options : ChunkerOpts) (d1 d2 : GoSlice) (n : Nat)
    (hv : UltraCDC.Validate options = none)
    (h1 : n ≤ d1.len) (h2 : n ≤ d2.len)
    (hb1 : options.MinSize + 8 ≤ d1.len) (hb2 : options.MinSize + 8 ≤ d2.len)
    (hag : ∀ t, t < n → d1.get t = d2.get t) :
    UltraCDC.Algorithm options d1 n = UltraCDC.Algorithm options d2 n :=
  UltraCDC.algorithm_congr options d1 d2 n h1 h2 hb1 hb2 hag

/-- C3 witness: prefix determinism instantiated at the validated triple
(64, 128, 256), n = 90, a 90-byte zero input and a 120-byte input whose first
90 bytes are zero. -/
theorem claim3_witness :
    UltraCDC.Algorithm ⟨64, 128, 256⟩ ⟨90, fun _ => 0⟩ 90 =
      UltraCDC.Algorithm ⟨64, 128, 256⟩ ⟨120, fun t => if t < 90 then 0 else 7⟩ 90 :=
  claim3_prefix_determinism ⟨64, 128, 256⟩ ⟨90, fun _ => 0⟩
    ⟨120, fun t => if t < 90 then 0 else 7⟩ 90 (by decide) (by decide) (by decide)
    (by decide) (by decide) (by decide)

/-- C4 counterexample: on maxSize = 65536 zero bytes under the default
options, the byte-indexed kernel does not return maxSize. -/
theorem claim4_counterexample :
    UltraCDC.Algorithm UltraCDC.DefaultOptions ⟨65536, fun _ => 0⟩ 65536 ≠ some 65536 := by
  decide

/-- C4 (amended): on maxSize zero bytes under the default options the kernel
cuts via the low-entropy path, not at max: after LEST = 64 consecutive equal
8-byte windows it returns minSize + 8·LEST + 8 = 2568, so the input yields
several chunks rather than exactly one chunk of length maxSize. -/
theorem claim4_low_entropy_cut :
    UltraCDC.Algorithm UltraCDC.DefaultOptions ⟨65536, fun _ => 0⟩ 65536 = some 2568 ∧
    2568 = 2048 + 8 * 64 + 8 := by
  decide

/-- C5: Validate (word-scanning revision, the one with the multiple-of-8
check) returns nil iff minSize, normalSize, maxSize all lie in [64, 2^30],
minSize < normalSize < maxSize, and minSize is a multiple of 8; and each
returned error identifies a violated bound (ErrMinSizeNotMultipleOf8,
ErrNormalSize, ErrMinSize, ErrMaxSize). -/
theorem claim5_validate_iff (o : ChunkerOpts) :
    (UltraCDCW.Validate o = none ↔
      (64 ≤ o.MinSize ∧ o.MinSize ≤ 2^30 ∧ 64 ≤ o.NormalSize ∧ o.NormalSize ≤ 2^30 ∧
       64 ≤ o.MaxSize ∧ o.MaxSize ≤ 2^30 ∧ o.MinSize < o.NormalSize ∧
       o.NormalSize < o.MaxSize ∧ o.MinSize % 8 = 0)) ∧
    (UltraCDCW.Validate o = some Err.ErrMinSizeNotMultipleOf8 → o.MinSize % 8 ≠ 0) ∧
    (UltraCDCW.Validate o = some Err.ErrNormalSize →
      ¬(64 ≤ o.NormalSize ∧ o.NormalSize ≤ 2^30)) ∧
    (UltraCDCW.Validate o = some Err.ErrMinSize →
      ¬(64 ≤ o.MinSize ∧ o.MinSize ≤ 2^30 ∧ o.MinSize < o.NormalSize)) ∧
    (UltraCDCW.Validate o = some Err.ErrMaxSize →
      ¬(64 ≤ o.MaxSize ∧ o.MaxSize ≤ 2^30 ∧ o.NormalSize < o.MaxSize)) :=
  UltraCDCW.validate_characterization o

/-- C5 witness: the characterization instantiated at (2048, 8192, 65536)
yields Validate = nil. -/
theorem claim5_witness : UltraCDCW.Validate ⟨2048, 8192, 65536⟩ = none :=
  (claim5_validate_iff ⟨2048, 8192, 65536⟩).1.mpr (by decide)

/-- C6: at every Hamming-distance mask test the byte-indexed kernel uses the
strict mask 0x2F when the scan position i is below the effective normal size
and the relaxed mask 0x2C once i is at or above it (the effective normal size
being n when minSize < n ≤ normalSize): the kernel equals the variant whose
mask is recomputed pointwise from the position, for all inputs, with no
8-byte-alignment assumption on normalSize. -/
theorem claim6_mask_selection (options : ChunkerOpts) (data : GoSlice) (n : Nat) :
    UltraCDC.Algorithm options data n = UltraCDC.AlgorithmMaskPos options data n :=
  UltraCDC.algorithm_eq_maskPos options data n

/-- C7 counterexample: DefaultOptions of the final byte-indexed revision is
not the claimed triple (2048, 8192, 65536) — its NormalSize is 10 KiB. -/
theorem claim7_counterexample :
    UltraCDC.DefaultOptions ≠ ⟨2048, 8192, 65536⟩ := by
  decide

/-- C7 (amended): the final byte-indexed revision returns
(MinSize, NormalSize, MaxSize) = (2048, 10240, 65536), which passes its
Validate; the earlier word-scanning revision returns the claimed
(2048, 8192, 65536), which passes its Validate. -/
theorem claim7_default_options :
    UltraCDC.DefaultOptions = ⟨2048, 10240, 65536⟩ ∧
    UltraCDC.Validate UltraCDC.DefaultOptions = none ∧
    UltraCDCW.DefaultOptions = ⟨2048, 8192, 65536⟩ ∧
    UltraCDCW.Validate UltraCDCW.DefaultOptions = none := by
  decide

/-- C9: the word-aligned revision (cutting at i + 8) and the byte-indexed
revision (cutting at i + j) are not extensionally equal: on a concrete
validated input satisfying the preconditions they return 80 and 73; and
whenever the inner scan hits the mask test at shift j of a word starting at
i, the word-aligned cut i + 8 exceeds the byte-indexed cut i + j by 8 - j,
which is at most 7 bytes when j ≥ 1 plus one extra word-rounding byte at
j = 0. -/
theorem claim9_word_vs_byte :
    (UltraCDC.Validate ⟨64, 128, 1024⟩ = none ∧
     UltraCDCW.Validate ⟨64, 128, 1024⟩ = none ∧
     UltraCDC.Algorithm ⟨64, 128, 1024⟩
       ⟨96, fun t => if 65 ≤ t ∧ t ≤ 79 then 0xAA else 0⟩ 96 = some 73 ∧
     UltraCDCW.Algorithm ⟨64, 128, 1024⟩
       ⟨96, fun t => if 65 ≤ t ∧ t ≤ 79 then 0xAA else 0⟩ 96 0 = some 80 ∧
     (73 : Nat) ≠ 80) ∧
    (∀ mask ow iw dist j i, UltraCDCW.scanWordW mask ow iw 8 0 dist = ScanRes.hit j →
       i + j ≤ i + 8 ∧ i + 8 = i + j + (8 - j) ∧ 8 - j ≤ 8 ∧
       (1 ≤ j → i + 8 ≤ i + j + 7)) := by
  constructor
  · decide
  · intro mask ow iw dist j i h
    have := UltraCDCW.scanWordW_hit_lt mask ow iw 8 0 dist j h
    omega

/-- C9 witness: the bound instantiated at a concrete inner scan that hits at
shift j = 0 (zero running distance), word base i = 64. -/
theorem claim9_witness :
    64 + 0 ≤ 64 + 8 ∧ 64 + 8 = 64 + 0 + (8 - 0) ∧ 8 - 0 ≤ 8 ∧
    (1 ≤ 0 → 64 + 8 ≤ 64 + 0 + 7) :=
  claim9_word_vs_byte.2 0x2F [] [] 0 0 64 (by decide)

/-- C10: loop invariant of the byte-indexed kernel: at every mask test the
incrementally maintained dist equals the Hamming distance between the current
sliding 8-byte window and 0xAA repeated, on the normal path and across
low-entropy skips alike — the kernel is extensionally equal, on all inputs,
to the variant that recomputes the window distance from scratch at every
test. -/
theorem claim10_incremental_distance (options : ChunkerOpts) (data : GoSlice) (n : Nat) :
    UltraCDC.Algorithm options data n = UltraCDC.AlgorithmRe options data n :=
  UltraCDC.algorithm_eq_re options data n
